import Mathlib

/-!
Verification of the JSPM repository: a disk-scheduling simulator
(`src/main.c`, FCFS and SCAN policies), an infix-to-postfix converter
(`src/postfix.cpp`) and a prefix-expression evaluator (`src/prefix.cpp`).

Each C/C++ routine is shallowly embedded as an executable Lean function:
machine ints become `Int`, arrays become `List Int`, the printed
"Move from X to Y" trace becomes a list of `(from, to)` pairs, and
operations whose C behaviour is undefined (out-of-bounds reads, popping
an empty `std::stack`, integer division by zero) return `Option`/`Except`
values, with `none`/`error` marking the undefined case.
-/

namespace JSPM

namespace DiskSched

/-- Embedding of `fcfs` (src/main.c lines 6-18): walk the request list in
input order, recording each move `(current_position, request)` and adding
`abs(current_position - request)` to the total. Returns (trace, total). -/
def fcfs : List Int → Int → List (Int × Int) × Int
  | [], _ => ([], 0)
  | r :: rest, pos =>
    ((pos, r) :: (fcfs rest r).1, |pos - r| + (fcfs rest r).2)

/-- Spec-side description for C2: the sum of absolute differences between
consecutive positions of a position sequence. -/
def consecAbsSum : List Int → Int
  | a :: b :: rest => |a - b| + consecAbsSum (b :: rest)
  | _ => 0

theorem fcfs_trace (l : List Int) : ∀ pos : Int, (fcfs l pos).1 = (pos :: l).zip l := by
  induction l with
  | nil => intro pos; rfl
  | cons r rest ih => intro pos; simp [fcfs, List.zip_cons_cons, ih r]

theorem fcfs_total (l : List Int) : ∀ pos : Int, (fcfs l pos).2 = consecAbsSum (pos :: l) := by
  induction l with
  | nil => intro pos; rfl
  | cons r rest ih => intro pos; simp [fcfs, consecAbsSum, ih r]

/-- One pass of the bubble sort in `scan` (src/main.c lines 29-37): swap each
adjacent pair that is out of order, carrying the larger element rightward. -/
def bubblePass : List Int → List Int
  | [] => []
  | [a] => [a]
  | a :: b :: rest =>
    if a > b then b :: bubblePass (a :: rest) else a :: bubblePass (b :: rest)

/-- Iterate `bubblePass`; the C outer loop runs `n - 1` times. -/
def bubblePasses : Nat → List Int → List Int
  | 0, l => l
  | k + 1, l => bubblePasses k (bubblePass l)

/-- The bubble sort of `scan`: copy the requests and run `n - 1` passes. -/
def bubbleSort (l : List Int) : List Int := bubblePasses (l.length - 1) l

/-- Record one serviced request: prepend the move `(pos, r)` to the trace and
add `abs(pos - r)` to the running total of a (trace, total, final) triple. -/
def move (pos r : Int) (k : List (Int × Int) × Int × Int) :
    List (Int × Int) × Int × Int :=
  ((pos, r) :: k.1, |pos - r| + k.2.1, k.2.2)

/-- Embedding of the rightward loop of `scan` (src/main.c lines 42-48):
service each request `r` with `r ≥ current_position`, in list order. -/
def sweepRight : List Int → Int → List (Int × Int) × Int × Int
  | [], pos => ([], 0, pos)
  | r :: rest, pos =>
    if r ≥ pos then move pos r (sweepRight rest r) else sweepRight rest pos

/-- Embedding of the leftward loop of `scan` (src/main.c lines 56-62), which
walks the sorted array from index `n-1` down to `0`; here the argument list is
the reversed sorted array. Services each `r` with `r ≤ current_position`. -/
def sweepLeft : List Int → Int → List (Int × Int) × Int × Int
  | [], pos => ([], 0, pos)
  | r :: rest, pos =>
    if r ≤ pos then move pos r (sweepLeft rest r) else sweepLeft rest pos

/-- Embedding of `scan` (src/main.c lines 20-65): sort a copy of the requests,
sweep right from the head, make the unconditional reversal move to
`sorted_requests[n - 1]`, sweep left, and report (trace, total). The read of
`sorted_requests[n - 1]` is modelled by `getLast?`; `none` marks the
out-of-bounds access that the C code performs when `n = 0`. -/
def scan (l : List Int) (head : Int) : Option (List (Int × Int) × Int) :=
  let sorted_requests := bubbleSort l
  let w := sweepRight sorted_requests head
  match sorted_requests.getLast? with
  | none => none
  | some last =>
    let u := sweepLeft sorted_requests.reverse last
    some (w.1 ++ (w.2.2, last) :: u.1, w.2.1 + |w.2.2 - last| + u.2.1)

/-- Service every request of a list in order, unconditionally. Spec-side
building block for the §4.2 description of SCAN. -/
def serviceSeq : List Int → Int → List (Int × Int) × Int × Int
  | [], pos => ([], 0, pos)
  | r :: rest, pos => move pos r (serviceSeq rest r)

/-- Spec-side SCAN, following the words of the spec (§4.2) and of C1: sort the
requests ascending; service exactly the requests `≥ head` in increasing order;
make an unconditional reversal move to the maximum request value; service the
requests `≤` the current position in decreasing order; total the absolute
differences. -/
def scanSpec (l : List Int) (head : Int) : Option (List (Int × Int) × Int) :=
  let s := List.insertionSort (· ≤ ·) l
  match s.getLast? with
  | none => none
  | some top =>
    let w := serviceSeq (s.filter (fun x => decide (x ≥ head))) head
    let u := serviceSeq ((s.filter (fun x => decide (x ≤ top))).reverse) top
    some (w.1 ++ (w.2.2, top) :: u.1, w.2.1 + |w.2.2 - top| + u.2.1)

end DiskSched

end JSPM

/-- C2: `fcfs` services the requests strictly in input order (its trace is the
consecutive pairing of `head :: requests` with `requests`, no sorting), and the
total it reports is the sum of absolute differences between consecutive
positions with the head as first current position; in particular this holds for
requests `[98,183,37,122,14,124,65,67]` with head `53`. -/
theorem JSPM.DiskSched.fcfs_services_in_input_order (l : List Int) (head : Int) :
    (fcfs l head).1 = (head :: l).zip l ∧
    (fcfs l head).2 = consecAbsSum (head :: l) ∧
    (fcfs [98, 183, 37, 122, 14, 124, 65, 67] 53).2 =
      consecAbsSum [53, 98, 183, 37, 122, 14, 124, 65, 67] :=
  ⟨fcfs_trace l head, fcfs_total l head,
    fcfs_total [98, 183, 37, 122, 14, 124, 65, 67] 53⟩

namespace JSPM

namespace DiskSched

theorem bubblePass_perm (l : List Int) : (bubblePass l).Perm l := by
  induction l using bubblePass.induct with
  | case1 => simp [bubblePass]
  | case2 a => simp [bubblePass]
  | case3 a b rest hab ih =>
    simp only [bubblePass, if_pos hab]
    exact (ih.cons b).trans (List.Perm.swap a b rest)
  | case4 a b rest hab ih =>
    simp only [bubblePass, if_neg hab]
    exact ih.cons a

theorem bubblePass_sorted_eq : ∀ l : List Int, l.Sorted (· ≤ ·) → bubblePass l = l := by
  intro l
  induction l with
  | nil => intro _; simp [bubblePass]
  | cons a t ih =>
    intro hs
    cases t with
    | nil => simp [bubblePass]
    | cons b r =>
      have hab : a ≤ b := (List.sorted_cons.mp hs).1 b (by simp)
      have hnab : ¬ a > b := not_lt.mpr hab
      simp [bubblePass, hnab, ih (List.sorted_cons.mp hs).2]

theorem bubblePass_decomp :
    ∀ l : List Int, l ≠ [] → ∃ l' M, bubblePass l = l' ++ [M] ∧ ∀ a ∈ l', a ≤ M := by
  intro l
  induction l using bubblePass.induct with
  | case1 => intro h; exact absurd rfl h
  | case2 a => intro _; exact ⟨[], a, by simp [bubblePass], by simp⟩
  | case3 a b rest hab ih =>
    intro _
    obtain ⟨l', M, heq, hle⟩ := ih (by simp)
    have haM : a ≤ M := by
      have hmem : a ∈ l' ++ [M] := by
        rw [← heq]; exact (bubblePass_perm (a :: rest)).symm.subset (by simp)
      rcases List.mem_append.mp hmem with h | h
      · exact hle a h
      · simp at h; omega
    refine ⟨b :: l', M, ?_, ?_⟩
    · simp [bubblePass, if_pos hab, heq]
    · intro x hx
      rcases List.mem_cons.mp hx with h | h
      · subst h; omega
      · exact hle x h
  | case4 a b rest hab ih =>
    intro _
    obtain ⟨l', M, heq, hle⟩ := ih (by simp)
    refine ⟨a :: l', M, ?_, ?_⟩
    · simp [bubblePass, if_neg hab, heq]
    · intro x hx
      rcases List.mem_cons.mp hx with h | h
      · have hab2 : a ≤ b := le_of_not_lt hab
        have hbM : b ≤ M := by
          have hmem : b ∈ l' ++ [M] := by
            rw [← heq]; exact (bubblePass_perm (b :: rest)).symm.subset (by simp)
          rcases List.mem_append.mp hmem with h2 | h2
          · exact hle b h2
          · simp at h2; omega
        omega
      · exact hle x h

theorem bubblePass_append (l2 : List Int) (h2 : l2.Sorted (· ≤ ·)) :
    ∀ l1 : List Int, (∀ a ∈ l1, ∀ b ∈ l2, a ≤ b) →
    bubblePass (l1 ++ l2) = bubblePass l1 ++ l2 := by
  intro l1
  induction l1 using bubblePass.induct with
  | case1 =>
    intro _
    simpa [bubblePass] using bubblePass_sorted_eq l2 h2
  | case2 a =>
    intro hdom
    cases l2 with
    | nil => simp
    | cons c t =>
      have hac : a ≤ c := hdom a (by simp) c (by simp)
      have hnac : ¬ a > c := not_lt.mpr hac
      simp only [List.singleton_append, bubblePass, if_neg hnac]
      rw [bubblePass_sorted_eq (c :: t) h2]
  | case3 a b rest hab ih =>
    intro hdom
    have ih2 := ih (fun x hx b2 hb2 => hdom x (by simp at hx ⊢; tauto) b2 hb2)
    simp only [List.cons_append, bubblePass, if_pos hab] at ih2 ⊢
    rw [ih2]
  | case4 a b rest hab ih =>
    intro hdom
    have ih2 := ih (fun x hx b2 hb2 => hdom x (by simp at hx ⊢; tauto) b2 hb2)
    simp only [List.cons_append, bubblePass, if_neg hab] at ih2 ⊢
    rw [ih2]

theorem bubblePasses_sorted_perm :
    ∀ (k : Nat) (l1 l2 : List Int), l2.Sorted (· ≤ ·) →
    (∀ a ∈ l1, ∀ b ∈ l2, a ≤ b) → l1.length ≤ k + 1 →
    (bubblePasses k (l1 ++ l2)).Sorted (· ≤ ·) ∧
      (bubblePasses k (l1 ++ l2)).Perm (l1 ++ l2) := by
  intro k
  induction k with
  | zero =>
    intro l1 l2 hs hdom hlen
    match l1 with
    | [] => simpa [bubblePasses] using hs
    | [a] =>
      refine ⟨?_, by simp [bubblePasses]⟩
      simp only [bubblePasses, List.singleton_append]
      exact List.sorted_cons.mpr ⟨fun b hb => hdom a (by simp) b hb, hs⟩
    | a :: b :: t => simp at hlen
  | succ k ih =>
    intro l1 l2 hs hdom hlen
    cases l1 with
    | nil =>
      have h0 : bubblePasses (k + 1) ([] ++ l2) = bubblePasses k l2 := by
        simp only [List.nil_append, bubblePasses]
        rw [bubblePass_sorted_eq l2 hs]
      rw [h0]
      simpa using ih [] l2 hs (by simp) (by simp)
    | cons x t =>
      obtain ⟨l', M, heq, hle⟩ := bubblePass_decomp (x :: t) (by simp)
      have hperm : (bubblePass (x :: t)).Perm (x :: t) := bubblePass_perm _
      have hl' : (l' ++ [M]).Perm (x :: t) := heq ▸ hperm
      have hMmem : M ∈ x :: t := hl'.subset (by simp)
      have hstep : bubblePasses (k + 1) ((x :: t) ++ l2) =
          bubblePasses k (l' ++ (M :: l2)) := by
        simp only [bubblePasses]
        rw [bubblePass_append l2 hs (x :: t) hdom, heq, List.append_assoc,
          List.singleton_append]
      have hsort2 : (M :: l2).Sorted (· ≤ ·) :=
        List.sorted_cons.mpr ⟨fun b hb => hdom M hMmem b hb, hs⟩
      have hdom2 : ∀ a ∈ l', ∀ b ∈ M :: l2, a ≤ b := by
        intro a ha b hb
        rcases List.mem_cons.mp hb with hbM | hb2
        · exact hbM ▸ hle a ha
        · exact hdom a (hl'.subset (by simp [ha])) b hb2
      have hlen2 : l'.length ≤ k + 1 := by
        have hle2 : (l' ++ [M]).length = (x :: t).length := hl'.length_eq
        simp at hle2 hlen
        omega
      have hmain := ih l' (M :: l2) hsort2 hdom2 hlen2
      rw [hstep]
      refine ⟨hmain.1, hmain.2.trans ?_⟩
      have hassoc : (l' ++ (M :: l2)) = (l' ++ [M]) ++ l2 := by simp
      rw [hassoc]
      exact hl'.append_right l2

theorem bubbleSort_sorted_perm (l : List Int) :
    (bubbleSort l).Sorted (· ≤ ·) ∧ (bubbleSort l).Perm l := by
  have h := bubblePasses_sorted_perm (l.length - 1) l [] (by simp) (by simp) (by omega)
  simpa [bubbleSort] using h

theorem bubbleSort_eq_insertionSort (l : List Int) :
    bubbleSort l = List.insertionSort (· ≤ ·) l :=
  List.eq_of_perm_of_sorted
    ((bubbleSort_sorted_perm l).2.trans (List.perm_insertionSort (· ≤ ·) l).symm)
    (bubbleSort_sorted_perm l).1
    (List.sorted_insertionSort (· ≤ ·) l)

end DiskSched

end JSPM

namespace JSPM

namespace DiskSched

theorem filter_ge_of_all {l : List Int} {pos : Int} (h : ∀ y ∈ l, pos ≤ y) :
    l.filter (fun x => decide (x ≥ pos)) = l :=
  List.filter_eq_self.mpr (fun a ha => by simpa using h a ha)

theorem sweepRight_eq_serviceSeq :
    ∀ (s : List Int) (pos : Int), s.Sorted (· ≤ ·) →
    sweepRight s pos = serviceSeq (s.filter (fun x => decide (x ≥ pos))) pos := by
  intro s
  induction s with
  | nil => intro pos _; rfl
  | cons r rest ih =>
    intro pos hs
    have hall : ∀ y ∈ rest, r ≤ y := (List.sorted_cons.mp hs).1
    have hrest : rest.Sorted (· ≤ ·) := (List.sorted_cons.mp hs).2
    by_cases hge : r ≥ pos
    · have h1 : rest.filter (fun x => decide (x ≥ pos)) = rest :=
        filter_ge_of_all (fun y hy => le_trans hge (hall y hy))
      have h2 : rest.filter (fun x => decide (x ≥ r)) = rest :=
        filter_ge_of_all hall
      simp only [sweepRight, if_pos hge, List.filter_cons, decide_eq_true hge, h1]
      rw [ih r hrest, h2]
      rfl
    · simp only [sweepRight, if_neg hge, List.filter_cons]
      have : decide (r ≥ pos) = false := decide_eq_false hge
      rw [this]
      simp only [Bool.false_eq_true, if_false]
      exact ih pos hrest

theorem sweepLeft_eq_serviceSeq :
    ∀ (s : List Int) (pos : Int), s.Sorted (· ≥ ·) → (∀ y ∈ s, y ≤ pos) →
    sweepLeft s pos = serviceSeq s pos := by
  intro s
  induction s with
  | nil => intro pos _ _; rfl
  | cons r rest ih =>
    intro pos hs hall
    have hr : r ≤ pos := hall r (by simp)
    have hrest : rest.Sorted (· ≥ ·) := (List.sorted_cons.mp hs).2
    have hall2 : ∀ y ∈ rest, y ≤ r := (List.sorted_cons.mp hs).1
    simp only [sweepLeft, if_pos hr, serviceSeq]
    rw [ih r hrest hall2]

end DiskSched

end JSPM

namespace JSPM

namespace DiskSched

theorem sorted_reverse_ge {s : List Int} (h : s.Sorted (· ≤ ·)) :
    s.reverse.Sorted (· ≥ ·) := by
  rw [List.Sorted, List.pairwise_reverse]
  exact h

theorem le_getLast_of_sorted {s : List Int} {m : Int} (h : s.Sorted (· ≤ ·))
    (hm : s.getLast? = some m) : ∀ x ∈ s, x ≤ m := by
  intro x hx
  have hrev : s.reverse.head? = some m := by rw [List.head?_reverse, hm]
  cases hrs : s.reverse with
  | nil => rw [hrs] at hrev; simp at hrev
  | cons a t =>
    rw [hrs] at hrev
    simp at hrev
    have hsorted : (a :: t).Sorted (· ≥ ·) := hrs ▸ sorted_reverse_ge h
    have hxmem : x ∈ a :: t := by
      rw [← hrs, List.mem_reverse]; exact hx
    rcases List.mem_cons.mp hxmem with h1 | h1
    · omega
    · have := List.rel_of_sorted_cons hsorted x h1
      omega

theorem scan_eq_scanSpec_of_ne (l : List Int) (head : Int) (hne : l ≠ []) :
    scan l head = scanSpec l head := by
  have heqs := bubbleSort_eq_insertionSort l
  have hsorted : (List.insertionSort (· ≤ ·) l).Sorted (· ≤ ·) :=
    List.sorted_insertionSort (· ≤ ·) l
  have hsne : List.insertionSort (· ≤ ·) l ≠ [] := by
    have hlen := (List.perm_insertionSort (· ≤ ·) l).length_eq
    intro h0
    rw [h0] at hlen
    cases l with
    | nil => exact hne rfl
    | cons a t => simp at hlen
  obtain ⟨m, hm⟩ : ∃ m, (List.insertionSort (· ≤ ·) l).getLast? = some m :=
    ⟨_, List.getLast?_eq_getLast _ hsne⟩
  have hright := sweepRight_eq_serviceSeq (List.insertionSort (· ≤ ·) l) head hsorted
  have hmax := le_getLast_of_sorted hsorted hm
  have hleft : sweepLeft (List.insertionSort (· ≤ ·) l).reverse m =
      serviceSeq (List.insertionSort (· ≤ ·) l).reverse m :=
    sweepLeft_eq_serviceSeq _ m (sorted_reverse_ge hsorted)
      (fun y hy => hmax y (List.mem_reverse.mp hy))
  have hfilter : (List.insertionSort (· ≤ ·) l).filter (fun x => decide (x ≤ m)) =
      List.insertionSort (· ≤ ·) l :=
    List.filter_eq_self.mpr (fun a ha => by simpa using hmax a ha)
  simp only [scan, scanSpec, heqs, hm, hright, hleft, hfilter]

end DiskSched

end JSPM

namespace JSPM

namespace DiskSched

theorem sweepRight_skip_all :
    ∀ (s : List Int) (pos : Int), (∀ x ∈ s, x < pos) → sweepRight s pos = ([], 0, pos) := by
  intro s
  induction s with
  | nil => intro pos _; rfl
  | cons r rest ih =>
    intro pos hall
    have hr : ¬ r ≥ pos := not_le.mpr (hall r (by simp))
    simp only [sweepRight, if_neg hr]
    exact ih pos (fun x hx => hall x (by simp [hx]))

theorem serviceSeq_total_descending :
    ∀ (s : List Int) (pos : Int), (pos :: s).Sorted (· ≥ ·) →
    (serviceSeq s pos).2.1 = pos - s.getLastD pos := by
  intro s
  induction s with
  | nil => intro pos _; simp [serviceSeq]
  | cons r rest ih =>
    intro pos hs
    have hrp : r ≤ pos := List.rel_of_sorted_cons hs r (by simp)
    have htail : (r :: rest).Sorted (· ≥ ·) := (List.sorted_cons.mp hs).2
    have habs : |pos - r| = pos - r := abs_of_nonneg (by omega)
    simp only [serviceSeq, move, habs, List.getLastD_cons]
    rw [ih r htail]
    omega

theorem scan_total_head_gt_min (l : List Int) (head m : Int) (hne : l ≠ [])
    (hgt : ∀ x ∈ l, x < head) (hmem : m ∈ l) (hmin : ∀ x ∈ l, m ≤ x) :
    (scan l head).map (fun out => out.2) = some (head - m) := by
  obtain ⟨hsorted, hperm⟩ := bubbleSort_sorted_perm l
  have hsne : bubbleSort l ≠ [] := by
    intro h0
    have hlen := hperm.length_eq
    rw [h0] at hlen
    cases l with
    | nil => exact hne rfl
    | cons a t => simp at hlen
  obtain ⟨mx, hmx⟩ : ∃ mx, (bubbleSort l).getLast? = some mx :=
    ⟨_, List.getLast?_eq_getLast _ hsne⟩
  have hmemS : ∀ x ∈ bubbleSort l, x ∈ l := fun x hx => hperm.subset hx
  have hright : sweepRight (bubbleSort l) head = ([], 0, head) :=
    sweepRight_skip_all _ head (fun x hx => hgt x (hmemS x hx))
  have hmax := le_getLast_of_sorted hsorted hmx
  have hleft : sweepLeft (bubbleSort l).reverse mx =
      serviceSeq (bubbleSort l).reverse mx :=
    sweepLeft_eq_serviceSeq _ mx (sorted_reverse_ge hsorted)
      (fun y hy => hmax y (List.mem_reverse.mp hy))
  have hmxl : mx ∈ l := by
    have h1 : (bubbleSort l).getLast hsne ∈ bubbleSort l := List.getLast_mem hsne
    have h2 := List.getLast?_eq_getLast _ hsne
    rw [hmx] at h2
    exact hmemS mx ((Option.some.inj h2).symm ▸ h1)
  have hconsSorted : (mx :: (bubbleSort l).reverse).Sorted (· ≥ ·) :=
    List.sorted_cons.mpr
      ⟨fun b hb => hmax b (List.mem_reverse.mp hb), sorted_reverse_ge hsorted⟩
  have htel := serviceSeq_total_descending (bubbleSort l).reverse mx hconsSorted
  cases hsplit : bubbleSort l with
  | nil => exact absurd hsplit hsne
  | cons hd tl =>
    have hhd : hd = m := by
      have hhdl : hd ∈ l := hmemS hd (by rw [hsplit]; simp)
      have hmS : m ∈ bubbleSort l := hperm.symm.subset hmem
      rw [hsplit] at hmS
      have hhdm : hd ≤ m := by
        rcases List.mem_cons.mp hmS with h1 | h1
        · omega
        · have := (List.sorted_cons.mp (hsplit ▸ hsorted)).1 m h1
          omega
      have := hmin hd hhdl
      omega
    have hgl : (bubbleSort l).reverse.getLastD mx = hd := by
      rw [List.getLastD_eq_getLast?, List.getLast?_reverse, hsplit]
      rfl
    have habs : |head - mx| = head - mx := abs_of_nonneg (by have := hgt mx hmxl; omega)
    rw [hgl] at htel
    simp only [scan, hmx, hright, hleft, Option.map_some]
    rw [htel, habs, hhd]
    simp

end DiskSched

end JSPM

/-- C1: for every request list of length between 1 and 100 and every head
position, `scan` equals the spec-side description `scanSpec`: it sorts the
requests ascending, services exactly the requests `≥ head` in increasing order
accumulating absolute differences, makes an unconditional reversal move to the
maximum request value (even when already there), services the requests `≤` the
current position in decreasing order, and reports the accumulated total. -/
theorem JSPM.DiskSched.scan_matches_spec (l : List Int) (head : Int)
    (h1 : 1 ≤ l.length) (h2 : l.length ≤ 100) :
    scan l head = scanSpec l head :=
  scan_eq_scanSpec_of_ne l head (by intro h0; rw [h0] at h1; simp at h1)

/-- Witness for C1 at requests `[98, 183, 37, 122, 14, 124, 65, 67]`, head `53`. -/
theorem JSPM.DiskSched.scan_matches_spec_witness :
    (1 ≤ ([98, 183, 37, 122, 14, 124, 65, 67] : List Int).length ∧
      ([98, 183, 37, 122, 14, 124, 65, 67] : List Int).length ≤ 100) ∧
    scan [98, 183, 37, 122, 14, 124, 65, 67] 53 =
      scanSpec [98, 183, 37, 122, 14, 124, 65, 67] 53 :=
  ⟨⟨by decide, by decide⟩,
    scan_matches_spec [98, 183, 37, 122, 14, 124, 65, 67] 53 (by decide) (by decide)⟩

/-- C3 counterexample: the claim asserts that for SOME non-empty request list
whose head exceeds every request, the reported SCAN total strictly exceeds
`head - min(requests)`. This is false: no such list exists. -/
theorem JSPM.DiskSched.scan_no_double_count_refutation :
    ¬ ∃ (l : List Int) (head m : Int) (out : List (Int × Int) × Int),
        l ≠ [] ∧ (∀ x ∈ l, x < head) ∧ m ∈ l ∧ (∀ x ∈ l, m ≤ x) ∧
        scan l head = some out ∧ head - m < out.2 := by
  rintro ⟨l, head, m, out, hne, hgt, hmem, hmin, hout, hlt⟩
  have h := scan_total_head_gt_min l head m hne hgt hmem hmin
  rw [hout] at h
  simp only [Option.map_some', Option.some.injEq] at h
  omega

/-- C3 amended: for EVERY non-empty request list whose head strictly exceeds
every request, the SCAN total equals exactly `head - min(requests)`; the
unconditional reversal step does not double-count movement in this case. -/
theorem JSPM.DiskSched.scan_total_head_above_all (l : List Int) (head m : Int)
    (hne : l ≠ []) (hgt : ∀ x ∈ l, x < head) (hmem : m ∈ l)
    (hmin : ∀ x ∈ l, m ≤ x) :
    (scan l head).map (fun out => out.2) = some (head - m) :=
  scan_total_head_gt_min l head m hne hgt hmem hmin

/-- Witness for C3 amended at requests `[10, 20]`, head `50`, minimum `10`. -/
theorem JSPM.DiskSched.scan_total_head_above_all_witness :
    (([10, 20] : List Int) ≠ [] ∧ (∀ x ∈ ([10, 20] : List Int), x < 50) ∧
      (10 : Int) ∈ ([10, 20] : List Int) ∧ ∀ x ∈ ([10, 20] : List Int), (10 : Int) ≤ x) ∧
    (scan [10, 20] 50).map (fun out => out.2) = some (50 - 10) :=
  ⟨⟨by decide, by decide, by decide, by decide⟩,
    scan_total_head_above_all [10, 20] 50 10 (by decide) (by decide) (by decide)
      (by decide)⟩

namespace JSPM

namespace DiskSched

/-- Embedding of the bounds check in `main` (src/main.c lines 74-77): the
request count is accepted unless `n > MAX_REQUESTS` (= 100). -/
def mainAccepts (n : Int) : Bool := !decide (n > 100)

/-- `fcfs` together with the final contents of the `requests` array: the body
of `fcfs` (src/main.c lines 6-18) contains no store to `requests`, so the
array it returns is its input. -/
def fcfsMem (requests : List Int) (head : Int) :
    (List (Int × Int) × Int) × List Int :=
  (fcfs requests head, requests)

/-- `scan` together with the final contents of the `requests` array: `scan`
(src/main.c lines 24-37) copies `requests` into its local `sorted_requests`
and sorts only that copy, so the shared array it returns is its input. -/
def scanMem (requests : List Int) (head : Int) :
    Option (List (Int × Int) × Int) × List Int :=
  (scan requests head, requests)

/-- Embedding of `main` (src/main.c lines 67-92): reject `n > 100` with exit
code 1, otherwise run `fcfs` and then `scan` on the requests array (threaded
through `fcfsMem`), and return exit code 0 with both outputs. -/
def mainRun (n : Int) (requests : List Int) (head : Int) :
    Except Int ((List (Int × Int) × Int) × Option (List (Int × Int) × Int) × Int) :=
  if n > 100 then Except.error 1
  else
    let f := fcfsMem requests head
    let sc := scanMem f.2 head
    Except.ok (f.1, sc.1, 0)

theorem bubbleSort_ne_nil {l : List Int} (hne : l ≠ []) : bubbleSort l ≠ [] := by
  intro h0
  have hlen := (bubbleSort_sorted_perm l).2.length_eq
  rw [h0] at hlen
  cases l with
  | nil => exact hne rfl
  | cons a t => simp at hlen

theorem scan_isSome {l : List Int} (head : Int) (hne : l ≠ []) :
    (scan l head).isSome := by
  have hsne := bubbleSort_ne_nil hne
  have hmx := List.getLast?_eq_getLast (bubbleSort l) hsne
  simp [scan, hmx]

end DiskSched

end JSPM

/-- C9: the reversal step of `scan` reads `sorted_requests[n - 1]`, in bounds
only when `n ≥ 1`; `main`'s check accepts every `n ≤ 100`, including `0` and
negative counts, so an empty request list reaches `scan`, where the read of
index `n - 1` (modelled by `getLast?`) is out of bounds and `scan` has no
defined result. -/
theorem JSPM.DiskSched.scan_oob_on_empty_requests :
    (∀ n : Int, mainAccepts n = decide (n ≤ 100)) ∧
    mainAccepts 0 = true ∧ mainAccepts (-3) = true ∧
    (bubbleSort ([] : List Int)).getLast? = none ∧
    (∀ head : Int, scan ([] : List Int) head = none) := by
  refine ⟨?_, by decide, by decide, by decide, ?_⟩
  · intro n
    show (!decide (n > 100)) = decide (n ≤ 100)
    rw [← decide_not]
    exact decide_eq_decide.mpr not_lt
  · intro head
    rfl

/-- C4 counterexample: with `n = 0` (which `main`'s bounds check accepts) the
program does not complete a well-defined FCFS-then-SCAN run: the SCAN
component of the result is `none`, its `sorted_requests[n - 1]` read being out
of bounds, so `main` does not deliver a SCAN result for every `n ≤ 100`. -/
theorem JSPM.DiskSched.main_zero_requests_no_scan :
    mainRun 0 [] 0 = Except.ok (([], 0), none, 0) := by rfl

/-- C4 amended: `mainRun` exits with code 1 exactly when `n > 100`; for every
`1 ≤ n ≤ 100` with `n` matching the number of requests read, it runs FCFS and
then SCAN on the same input, the SCAN phase completes (`isSome`), and the exit
code is 0. (For `n = 0` the SCAN phase performs an out-of-bounds read, see C9.) -/
theorem JSPM.DiskSched.main_guard_and_run (n : Int) (requests : List Int)
    (head : Int) (h1 : 1 ≤ n) (h2 : n ≤ 100) (h3 : requests.length = n.toNat) :
    (∀ m : Int, 100 < m → mainRun m requests head = Except.error 1) ∧
    mainRun n requests head = Except.ok (fcfs requests head, scan requests head, 0) ∧
    (scan requests head).isSome := by
  have hne : requests ≠ [] := by
    intro h0
    rw [h0] at h3
    simp at h3
    omega
  refine ⟨?_, ?_, scan_isSome head hne⟩
  · intro m hm
    simp [mainRun, hm]
  · have hn : ¬ n > 100 := not_lt.mpr h2
    simp [mainRun, hn, fcfsMem, scanMem]

/-- Witness for C4 amended at `n = 2`, requests `[1, 2]`, head `0`. -/
theorem JSPM.DiskSched.main_guard_and_run_witness :
    ((1 : Int) ≤ 2 ∧ (2 : Int) ≤ 100 ∧ ([1, 2] : List Int).length = (2 : Int).toNat) ∧
    ((∀ m : Int, 100 < m → mainRun m [1, 2] 0 = Except.error 1) ∧
      mainRun 2 [1, 2] 0 = Except.ok (fcfs [1, 2] 0, scan [1, 2] 0, 0) ∧
      (scan ([1, 2] : List Int) 0).isSome) :=
  ⟨⟨by decide, by decide, by decide⟩,
    main_guard_and_run 2 [1, 2] 0 (by decide) (by decide) (by decide)⟩

/-- C8: running `fcfs` and then `scan` leaves the requests array exactly as
read: `fcfs` returns its input array unchanged (it never writes to it), `scan`
sorts only its private copy `sorted_requests`, and the `scan` invoked second by
`main` observes the original input order. -/
theorem JSPM.DiskSched.requests_immutable (l : List Int) (head n : Int)
    (hn : n ≤ 100) :
    (fcfsMem l head).2 = l ∧ (scanMem l head).2 = l ∧
    mainRun n l head = Except.ok (fcfs l head, scan l head, 0) := by
  have hng : ¬ n > 100 := not_lt.mpr hn
  exact ⟨rfl, rfl, by simp [mainRun, hng, fcfsMem, scanMem]⟩

/-- Witness for C8 at requests `[5, 2]`, head `1`, `n = 3`. -/
theorem JSPM.DiskSched.requests_immutable_witness :
    ((3 : Int) ≤ 100) ∧
    ((fcfsMem [5, 2] 1).2 = [5, 2] ∧ (scanMem [5, 2] 1).2 = [5, 2] ∧
      mainRun 3 [5, 2] 1 = Except.ok (fcfs [5, 2] 1, scan [5, 2] 1, 0)) :=
  ⟨by decide, requests_immutable [5, 2] 1 3 (by decide)⟩

namespace JSPM

namespace PrefixEval

/-- Embedding of the operator case in src/prefix.cpp (lines 18-26): after the
two pops (`a` first, `b` second), push `a <op> b` for the matching operator;
`/` is C integer division (truncation toward zero), undefined for `b = 0`
(modelled by `none`); a character that matches no operator pushes nothing. -/
def applyOp (ch : Char) (a b : Int) (rest : List Int) : Option (List Int) :=
  if ch = '+' then some ((a + b) :: rest)
  else if ch = '-' then some ((a - b) :: rest)
  else if ch = '*' then some ((a * b) :: rest)
  else if ch = '/' then (if b = 0 then none else some (Int.tdiv a b :: rest))
  else some rest

/-- One iteration of the loop in src/prefix.cpp (lines 12-29): a digit
character pushes its numeric value `ch - '0'`; any other character pops two
operands and applies `applyOp`. Popping an empty `std::stack` is undefined
(`none`). -/
def prefixStep (st : List Int) (ch : Char) : Option (List Int) :=
  if '0' ≤ ch ∧ ch ≤ '9' then some (((ch.toNat : Int) - ('0'.toNat : Int)) :: st)
  else
    match st with
    | a :: b :: rest => applyOp ch a b rest
    | _ => none

/-- Run the loop over a character sequence (already in iteration order). -/
def evalSteps : List Char → List Int → Option (List Int)
  | [], st => some st
  | ch :: rest, st =>
    match prefixStep st ch with
    | none => none
    | some st2 => evalSteps rest st2

/-- Embedding of `main` in src/prefix.cpp: iterate right to left over the
expression, then print the top of the stack (undefined if the stack is
empty). -/
def evalExpr (e : List Char) : Option Int :=
  match evalSteps e.reverse [] with
  | some (r :: _) => some r
  | _ => none

end PrefixEval

end JSPM

/-- C5: the prefix evaluator scans right to left; a digit character pushes its
numeric value `ch - '0'`; an operator pops `a` (first) and `b` (second) and
pushes `a <op> b` with the first-popped value as left operand; the final stack
top is the result. In particular `"+23"` evaluates to `5`. -/
theorem JSPM.PrefixEval.step_behavior (st rest : List Int) (a b : Int)
    (d : Char) (hd : '0' ≤ d ∧ d ≤ '9') :
    prefixStep st d = some (((d.toNat : Int) - ('0'.toNat : Int)) :: st) ∧
    prefixStep (a :: b :: rest) '+' = some ((a + b) :: rest) ∧
    prefixStep (a :: b :: rest) '-' = some ((a - b) :: rest) ∧
    prefixStep (a :: b :: rest) '*' = some ((a * b) :: rest) ∧
    prefixStep (a :: b :: rest) '/' =
      (if b = 0 then none else some (Int.tdiv a b :: rest)) ∧
    evalExpr ['+', '2', '3'] = some 5 := by
  refine ⟨?_, rfl, rfl, rfl, rfl, by decide⟩
  simp only [prefixStep, if_pos hd]

/-- Witness for C5 at digit `'7'`, stack `[]`, operands `4`, `9`, rest `[]`. -/
theorem JSPM.PrefixEval.step_behavior_witness :
    ('0' ≤ '7' ∧ '7' ≤ '9') ∧
    (prefixStep [] '7' = some [(('7').toNat : Int) - ('0'.toNat : Int)] ∧
      prefixStep [4, 9] '+' = some [4 + 9] ∧
      prefixStep [4, 9] '-' = some [4 - 9] ∧
      prefixStep [4, 9] '*' = some [4 * 9] ∧
      prefixStep [4, 9] '/' =
        (if (9 : Int) = 0 then none else some [Int.tdiv 4 9]) ∧
      evalExpr ['+', '2', '3'] = some 5) :=
  ⟨by decide, step_behavior [] [] 4 9 '7' (by decide)⟩

/-- C10: the `/` case performs `a / b` with no zero check: it is defined
exactly when the second-popped operand `b` is nonzero, and the well-formed
prefix expression `"/10"` (where `a = 1`, `b = 0`) hits the undefined integer
division by zero. -/
theorem JSPM.PrefixEval.division_needs_nonzero (a b : Int) (rest : List Int) :
    (applyOp '/' a b rest = none ↔ b = 0) ∧
    evalExpr ['/', '1', '0'] = none := by
  refine ⟨?_, by decide⟩
  show ((if ('/' : Char) = '+' then some ((a + b) :: rest)
    else if ('/' : Char) = '-' then some ((a - b) :: rest)
    else if ('/' : Char) = '*' then some ((a * b) :: rest)
    else if ('/' : Char) = '/' then
      (if b = 0 then none else some (Int.tdiv a b :: rest))
    else some rest) = none) ↔ b = 0
  rw [if_neg (by decide), if_neg (by decide), if_neg (by decide), if_pos rfl]
  by_cases hb : b = 0
  · simp [hb]
  · simp [hb]

namespace JSPM

namespace PostfixConv

/-- Embedding of the `+`/`-` while loop in src/postfix.cpp: pop (returning the
popped characters in pop order) while the stack is non-empty and the top is
not `'('`; also return the remaining stack. -/
def popWhileNotLParen : List Char → List Char × List Char
  | [] => ([], [])
  | c :: rest =>
    if c = '(' then ([], c :: rest)
    else (c :: (popWhileNotLParen rest).1, (popWhileNotLParen rest).2)

/-- Embedding of the `*`/`/` while loop in src/postfix.cpp: pop while the
stack is non-empty and the top is `'*'` or `'/'`. -/
def popWhileMulDiv : List Char → List Char × List Char
  | [] => ([], [])
  | c :: rest =>
    if c = '*' ∨ c = '/' then
      (c :: (popWhileMulDiv rest).1, (popWhileMulDiv rest).2)
    else ([], c :: rest)

/-- Embedding of the `)` case in src/postfix.cpp: pop and collect until the
matching `'('`, discarding it. Calling `top()` on an emptied stack is
undefined (`none`). -/
def closeParen : List Char → Option (List Char × List Char)
  | [] => none
  | c :: rest =>
    if c = '(' then some ([], rest)
    else (closeParen rest).map (fun pr => (c :: pr.1, pr.2))

/-- One iteration of the conversion loop in src/postfix.cpp (lines 10-50),
acting on (stack, output); returns the new (stack, output). -/
def postfixStep (ch : Char) (st out : List Char) :
    Option (List Char × List Char) :=
  if 'A' ≤ ch ∧ ch ≤ 'Z' then some (st, out ++ [ch])
  else if ch = '(' then some (ch :: st, out)
  else if ch = ')' then
    match closeParen st with
    | none => none
    | some pr => some (pr.2, out ++ pr.1)
  else if st.isEmpty then some ([ch], out)
  else if ch = '+' ∨ ch = '-' then
    some (ch :: (popWhileNotLParen st).2, out ++ (popWhileNotLParen st).1)
  else if ch = '*' ∨ ch = '/' then
    some (ch :: (popWhileMulDiv st).2, out ++ (popWhileMulDiv st).1)
  else some (st, out)

/-- Run the conversion loop over the input, then (src/postfix.cpp lines 45-48)
pop and append the remaining stack contents to the output. -/
def runConv : List Char → List Char → List Char → Option (List Char)
  | [], st, out => some (out ++ st)
  | ch :: rest, st, out =>
    match postfixStep ch st out with
    | none => none
    | some pr => runConv rest pr.1 pr.2

/-- Embedding of `main` in src/postfix.cpp: convert the infix string starting
from an empty stack and empty output. -/
def toPostfixOut (input : List Char) : Option (List Char) := runConv input [] []

theorem popWhileNotLParen_eq (st : List Char) :
    popWhileNotLParen st =
      (st.takeWhile (fun c => c != '('), st.dropWhile (fun c => c != '(')) := by
  induction st with
  | nil => rfl
  | cons c rest ih =>
    by_cases hc : c = '('
    · simp [popWhileNotLParen, hc, List.takeWhile_cons, List.dropWhile_cons]
    · simp [popWhileNotLParen, hc, List.takeWhile_cons, List.dropWhile_cons, ih]

theorem popWhileMulDiv_eq (st : List Char) :
    popWhileMulDiv st =
      (st.takeWhile (fun c => c == '*' || c == '/'),
        st.dropWhile (fun c => c == '*' || c == '/')) := by
  induction st with
  | nil => rfl
  | cons c rest ih =>
    by_cases hc : c = '*' ∨ c = '/'
    · have hb : (c == '*' || c == '/') = true := by
        rcases hc with h | h <;> simp [h]
      simp [popWhileMulDiv, hc, List.takeWhile_cons, List.dropWhile_cons, hb, ih]
    · have hb : (c == '*' || c == '/') = false := by
        push_neg at hc
        simp [hc.1, hc.2]
      simp [popWhileMulDiv, hc, List.takeWhile_cons, List.dropWhile_cons, hb]

end PostfixConv

end JSPM

/-- C6: on reading `+` or `-` the converter pops and appends operators until a
`(` or an empty stack is reached and then pushes the new operator; on reading
`*` or `/` it pops and appends only the `*`/`/` operators on top before
pushing; and once the input is exhausted all remaining stack contents are
popped and appended to the output. -/
theorem JSPM.PostfixConv.operator_rules (st out : List Char) :
    postfixStep '+' st out =
      some ('+' :: st.dropWhile (fun c => c != '('),
        out ++ st.takeWhile (fun c => c != '(')) ∧
    postfixStep '-' st out =
      some ('-' :: st.dropWhile (fun c => c != '('),
        out ++ st.takeWhile (fun c => c != '(')) ∧
    postfixStep '*' st out =
      some ('*' :: st.dropWhile (fun c => c == '*' || c == '/'),
        out ++ st.takeWhile (fun c => c == '*' || c == '/')) ∧
    postfixStep '/' st out =
      some ('/' :: st.dropWhile (fun c => c == '*' || c == '/'),
        out ++ st.takeWhile (fun c => c == '*' || c == '/')) ∧
    runConv [] st out = some (out ++ st) := by
  refine ⟨?_, ?_, ?_, ?_, rfl⟩ <;>
    (cases st with
     | nil => simp [postfixStep]
     | cons c rest =>
       simp only [postfixStep, if_neg (by decide : ¬ ('A' ≤ '+' ∧ '+' ≤ 'Z')),
         popWhileNotLParen_eq, popWhileMulDiv_eq]
       rfl)

/-- C7 counterexample: the claim asserts the converter's output on `"A+B*C"`
differs from the textbook postfix `"ABC*+"`; in fact it does not differ. -/
theorem JSPM.PostfixConv.a_plus_b_times_c_not_different :
    ¬ (toPostfixOut ['A', '+', 'B', '*', 'C'] ≠
        some ['A', 'B', 'C', '*', '+']) := by decide

/-- C7 amended: on input `"A+B*C"` the converter produces exactly `"ABC*+"`,
the literal output of the §4.3 rules, which on this input coincides with the
textbook-correct postfix. -/
theorem JSPM.PostfixConv.a_plus_b_times_c_output :
    toPostfixOut ['A', '+', 'B', '*', 'C'] = some ['A', 'B', 'C', '*', '+'] := by
  decide
